import Mathlib

/-!
Verification of the upload-ingest pipeline (byte_source.cpp / ingest.cpp).

Modelling conventions:
* Bytes are `Nat` values (the code uses `uint8_t`, so real inputs are < 256;
  none of the verified properties needs that bound).
* `std::string` values that the code inspects byte by byte (MIME type strings,
  sniffed content) are modelled as their byte sequences, `List Nat`; helper
  `ascii` converts a Lean string literal to that form.  Opaque strings that are
  only produced and compared as whole values (violation messages, the hex
  digest, the filename) stay Lean `String`.
* Machine integers: `uint32_t` arithmetic carries an explicit `% 2 ^ 32`,
  `uint64_t` an explicit `% 2 ^ 64`; `int64_t` fields are `Int`;
  `size_t` quantities are `Nat` (`size_t` maximum is `2 ^ 64 - 1`).
* A `ByteSource` is modelled by the list of outcomes its successive `read`
  calls produce (`ReadEvent`): a chunk of bytes (empty chunk = the 0 return
  signalling end of stream) or a thrown I/O error.
* C++ exceptions are modelled with `Except`: a thrown exception is `.error`.
* `ingest` returns the list of `persist` invocations made on the sink, so
  "the sink is called exactly once" is the statement that the list on the
  success path is a singleton, and an aborted call yields no invocation.
-/

/-- Byte sequence of an ASCII string literal. -/
def ascii (s : String) : List Nat := s.toList.map Char.toNat

/-! ## MIME string normalisation (ingest.cpp, stripMime / equalsIgnoreParams) -/

/-- C `isspace` on an unsigned char in the default locale:
space (32) and horizontal tab through carriage return (9..13). -/
def isSpaceByte (c : Nat) : Bool := c == 32 || (9 ≤ c && c ≤ 13)

/-- C `tolower` on an unsigned char in the default locale. -/
def toLowerByte (c : Nat) : Nat := if 65 ≤ c ∧ c ≤ 90 then c + 32 else c

/-- ingest.cpp stripMime, its four steps in source order: keep everything
before the first semicolon (substr up to find of 59), erase leading
whitespace, erase trailing whitespace, then lower-case every byte. -/
def stripMime (mime : List Nat) : List Nat :=
  ((((mime.takeWhile (fun c => c ≠ 59)).dropWhile
      (fun c => isSpaceByte c)).reverse.dropWhile
      (fun c => isSpaceByte c)).reverse).map toLowerByte

/-- ingest.cpp equalsIgnoreParams: MIME comparison ignoring parameters. -/
def equalsIgnoreParams (lhs rhs : List Nat) : Bool :=
  stripMime lhs == stripMime rhs

/-- ingest.cpp isAcceptedMime: true if the detected type matches any accepted
entry (the loop returns on the first match). -/
def isAcceptedMime (detected : List Nat) (accepted : List (List Nat)) : Bool :=
  accepted.any fun candidate => equalsIgnoreParams detected candidate

/-! ## Data model (ingest.hpp) -/

/-- UploadMeta: claimed facts supplied by the untrusted caller. -/
structure UploadMeta where
  filename : String
  claimedMime : List Nat
  hasContentLength : Bool
  contentLength : Int
deriving DecidableEq

/-- IngestConfig: validation policy. -/
structure IngestConfig where
  maxContentLength : Int
  acceptedMimes : List (List Nat)
deriving DecidableEq

/-- IngestResult: the pipeline output record. -/
structure IngestResult where
  detectedMime : List Nat
  size : Int
  sha256 : String
  ok : Bool
  errors : List String
deriving DecidableEq

/-! ## Validators (ingest.cpp, validateLengths / validateMime) -/

/-- ingest.cpp validateLengths: content-length violations, in source order
(the two vector appends are modelled as list concatenation). -/
def validateLengths (meta : UploadMeta) (size : Int) (maxContentLength : Int) :
    List String :=
  (if meta.hasContentLength then
    (if meta.contentLength < 0 then ["contentLength is negative"]
     else if size ≠ meta.contentLength then ["contentLength mismatch"]
     else [])
   else []) ++
  (if 0 ≤ maxContentLength ∧ maxContentLength < size then
    ["exceeds maxContentLength"]
   else [])

/-- ingest.cpp validateMime: MIME violations, in source order. -/
def validateMime (meta : UploadMeta) (detected : List Nat)
    (accepted : List (List Nat)) : List String :=
  (if meta.claimedMime ≠ [] ∧ ¬ equalsIgnoreParams meta.claimedMime detected then
    ["claimedMime does not match detectedMime"]
   else []) ++
  (if accepted ≠ [] ∧ ¬ isAcceptedMime detected accepted then
    ["detectedMime not accepted"]
   else [])

/-! ## MIME detection (ingest.cpp, detectMime) -/

/-- Byte-wise test that `needle` occurs at the head of `haystack`. -/
def matchesAt : List Nat → List Nat → Bool
  | [], _ => true
  | _ :: _, [] => false
  | n :: ns, h :: hs => n == h && matchesAt ns hs

/-- Occurrence test for a byte sequence inside another, the semantics of
`std::string::find(needle) != npos`. -/
def containsSeq (needle : List Nat) : List Nat → Bool
  | [] => needle.isEmpty
  | h :: hs => matchesAt needle (h :: hs) || containsSeq needle hs

def pdfMagic : List Nat := ascii "%PDF"

def pngMagic : List Nat := [0x89, 0x50, 0x4E, 0x47, 0x0D, 0x0A, 0x1A, 0x0A]

def zipMagic : List Nat := [0x50, 0x4B, 0x03, 0x04]

def wordSig : List Nat := ascii "word/"

def contentTypesSig : List Nat := ascii "[Content_Types].xml"

def mimePdf : List Nat := ascii "application/pdf"

def mimePng : List Nat := ascii "image/png"

def mimeDocx : List Nat :=
  ascii "application/vnd.openxmlformats-officedocument.wordprocessingml.document"

def mimeOctetStream : List Nat := ascii "application/octet-stream"

/-- ingest.cpp detectMime: signature-based content sniffing.  The ZIP branch
searches the first `min(length, 4096)` bytes for the two container markers. -/
def detectMime (bytes : List Nat) : List Nat :=
  if 4 ≤ bytes.length ∧ bytes.take 4 = pdfMagic then mimePdf
  else if 8 ≤ bytes.length ∧ bytes.take 8 = pngMagic then mimePng
  else if 4 ≤ bytes.length ∧ bytes.take 4 = zipMagic ∧
      (containsSeq wordSig (bytes.take 4096) ||
       containsSeq contentTypesSig (bytes.take 4096)) then mimeDocx
  else mimeOctetStream

/-! ## Byte sources (byte_source.hpp / byte_source.cpp / ingest.cpp) -/

/-- Outcome of one `ByteSource::read` call: a chunk of copied bytes (`[]`
is the 0 return that signals end of stream) or a thrown I/O error. -/
inductive ReadEvent where
  | chunk (bytes : List Nat)
  | ioError
deriving DecidableEq

/-- The exceptions the pipeline can throw. -/
inductive PipelineError where
  | sourceIoError
  | bufferCeilingExceeded
  | payloadSizeExceedsRange
deriving DecidableEq

/-- byte_source.cpp consumeToBuffer, inner loop: read a chunk, stop on a zero
read, add the chunk size to the running total, throw the moment the total
exceeds `maxBytes`, otherwise append the chunk and continue. -/
def consumeToBufferAux (maxBytes : Nat) :
    List ReadEvent → Nat → List Nat → Except PipelineError (List Nat)
  | [], _, data => Except.ok data
  | ReadEvent.ioError :: _, _, _ => Except.error PipelineError.sourceIoError
  | ReadEvent.chunk c :: rest, total, data =>
    if c.length = 0 then Except.ok data
    else if maxBytes < total + c.length then
      Except.error PipelineError.bufferCeilingExceeded
    else consumeToBufferAux maxBytes rest (total + c.length) (data ++ c)

/-- byte_source.cpp consumeToBuffer: drain a source into a buffer, enforcing
the `maxBytes` ceiling on the running total. -/
def consumeToBuffer (reads : List ReadEvent) (maxBytes : Nat) :
    Except PipelineError (List Nat) :=
  consumeToBufferAux maxBytes reads 0 []

/-- The chunks a source yields before its end of stream: every leading
nonempty chunk, cut off by the first zero read or I/O error. -/
def yieldedChunks : List ReadEvent → List (List Nat)
  | [] => []
  | ReadEvent.ioError :: _ => []
  | ReadEvent.chunk c :: rest =>
    if c.length = 0 then [] else c :: yieldedChunks rest

/-- ingest.cpp VectorByteSource::read (also MemoryByteSource::read in
test.cpp): the in-memory source over `data` with cursor `offset`; returns the
copied bytes and the new cursor. -/
def vbsRead (data : List Nat) (offset maxLen : Nat) : List Nat × Nat :=
  if data.length ≤ offset ∨ maxLen = 0 then ([], offset)
  else
    let remaining := data.length - offset
    let toCopy := if remaining < maxLen then remaining else maxLen
    ((data.drop offset).take toCopy, offset + toCopy)

/-- A sink-side drain loop over an in-memory source: issue one read per entry
of `maxLens`, stopping at the first zero read, and concatenate the copied
bytes (the read-until-zero loop of RecordingSink::persist in test.cpp). -/
def drainVBS (data : List Nat) (offset : Nat) : List Nat → List Nat
  | [] => []
  | m :: rest =>
    let out := vbsRead data offset m
    if out.1.length = 0 then [] else out.1 ++ drainVBS data out.2 rest


/-! ## SHA-256 (ingest.cpp) -/

/-- ingest.cpp kSha256K: the round constant table, its 64 uint32 entries
written in decimal (the first is 0x428a2f98, the last 0xc67178f2). -/
def kSha256K : List Nat :=
  [1116352408, 1899447441, 3049323471, 3921009573, 961987163, 1508970993,
   2453635748, 2870763221, 3624381080, 310598401, 607225278, 1426881987,
   1925078388, 2162078206, 2614888103, 3248222580, 3835390401, 4022224774,
   264347078, 604807628, 770255983, 1249150122, 1555081692, 1996064986,
   2554220882, 2821834349, 2952996808, 3210313671, 3336571891, 3584528711,
   113926993, 338241895, 666307205, 773529912, 1294757372, 1396182291,
   1695183700, 1986661051, 2177026350, 2456956037, 2730485921, 2820302411,
   3259730800, 3345764771, 3516065817, 3600352804, 4094571909, 275423344,
   430227734, 506948616, 659060556, 883997877, 958139571, 1322822218,
   1537002063, 1747873779, 1955562222, 2024104815, 2227730452, 2361852424,
   2428436474, 2756734187, 3204031479, 3329325298]

/-- ingest.cpp rotr: 32-bit rotate right. -/
def rotr (value bits : Nat) : Nat :=
  (value >>> bits) ||| ((value <<< (32 - bits)) % 2 ^ 32)

/-- The 8-word SHA-256 running state (array of uint32 in the source). -/
structure Sha256State where
  s0 : Nat
  s1 : Nat
  s2 : Nat
  s3 : Nat
  s4 : Nat
  s5 : Nat
  s6 : Nat
  s7 : Nat
deriving DecidableEq

/-- ingest.cpp sha256StateInit: the standard initial state, the 8 uint32
words written in decimal (0x6a09e667 through 0x5be0cd19). -/
def sha256StateInit : Sha256State :=
  ⟨1779033703, 3144134277, 1013904242, 2773480762,
   1359893119, 2600822924, 528734635, 1541459225⟩

/-- First 16 words of the message schedule: big-endian load of the block. -/
def sha256LoadWords (block : List Nat) : List Nat :=
  (List.range 16).map fun i =>
    ((block.getD (4 * i) 0) <<< 24 |||
     (block.getD (4 * i + 1) 0) <<< 16 |||
     (block.getD (4 * i + 2) 0) <<< 8 |||
     (block.getD (4 * i + 3) 0))

/-- One step of the message-schedule extension: with `n` words computed so
far, append word `n` from words `n-16`, `n-15`, `n-7`, `n-2`. -/
def sha256ExtendStep (w : List Nat) : List Nat :=
  let n := w.length
  let wm15 := w.getD (n - 15) 0
  let wm2 := w.getD (n - 2) 0
  let s0 := rotr wm15 7 ^^^ rotr wm15 18 ^^^ (wm15 >>> 3)
  let s1 := rotr wm2 17 ^^^ rotr wm2 19 ^^^ (wm2 >>> 10)
  w ++ [(w.getD (n - 16) 0 + s0 + w.getD (n - 7) 0 + s1) % 2 ^ 32]

/-- Full 64-word message schedule of a block (the two loops over `w`). -/
def sha256Schedule (block : List Nat) : List Nat :=
  (List.range 48).foldl (fun w _ => sha256ExtendStep w) (sha256LoadWords block)

/-- One compression round; the state fields play the roles a..h. -/
def sha256Round (t : Sha256State) (kw : Nat × Nat) : Sha256State :=
  let S1 := rotr t.s4 6 ^^^ rotr t.s4 11 ^^^ rotr t.s4 25
  let ch := (t.s4 &&& t.s5) ^^^ ((t.s4 ^^^ (2 ^ 32 - 1)) &&& t.s6)
  let temp1 := (t.s7 + S1 + ch + kw.1 + kw.2) % 2 ^ 32
  let S0 := rotr t.s0 2 ^^^ rotr t.s0 13 ^^^ rotr t.s0 22
  let maj := (t.s0 &&& t.s1) ^^^ (t.s0 &&& t.s2) ^^^ (t.s1 &&& t.s2)
  let temp2 := (S0 + maj) % 2 ^ 32
  ⟨(temp1 + temp2) % 2 ^ 32, t.s0, t.s1, t.s2,
   (t.s3 + temp1) % 2 ^ 32, t.s4, t.s5, t.s6⟩

/-- ingest.cpp sha256ProcessBlock: update the state with one 64-byte block. -/
def sha256ProcessBlock (state : Sha256State) (block : List Nat) : Sha256State :=
  let w := sha256Schedule block
  let r := (kSha256K.zip w).foldl sha256Round state
  ⟨(state.s0 + r.s0) % 2 ^ 32, (state.s1 + r.s1) % 2 ^ 32,
   (state.s2 + r.s2) % 2 ^ 32, (state.s3 + r.s3) % 2 ^ 32,
   (state.s4 + r.s4) % 2 ^ 32, (state.s5 + r.s5) % 2 ^ 32,
   (state.s6 + r.s6) % 2 ^ 32, (state.s7 + r.s7) % 2 ^ 32⟩

/-- The while loop of sha256Hex, written with a fuel argument so that the
definition stays structurally recursive (each iteration consumes 64 bytes, so
`data.length` is enough fuel): process leading 64-byte blocks while at least
64 bytes remain, and return the final state with the leftover bytes. -/
def processFullBlocksFuel : Nat → Sha256State → List Nat → Sha256State × List Nat
  | 0, state, data => (state, data)
  | fuel + 1, state, data =>
    if 64 ≤ data.length then
      processFullBlocksFuel fuel (sha256ProcessBlock state (data.take 64)) (data.drop 64)
    else (state, data)

/-- The while loop of sha256Hex over the whole input. -/
def processFullBlocks (state : Sha256State) (data : List Nat) :
    Sha256State × List Nat :=
  processFullBlocksFuel data.length state data

/-- The 8 big-endian bytes of the 64-bit bit length. -/
def lengthBytes (bitLength : Nat) : List Nat :=
  (List.range 8).map fun i => (bitLength >>> (56 - 8 * i)) % 256

/-- The 128-byte `finalBlock` array of sha256Hex after all its writes, for a
leftover of fewer than 64 bytes: the leftover is copied to the front, a 0x80
marker follows, the 8 length bytes sit at `paddingIndex`, everything else is
zero. -/
def finalBlockBytes (remaining : List Nat) (bitLength : Nat) : List Nat :=
  remaining ++ [0x80] ++
    List.replicate ((if remaining.length + 9 ≤ 64 then 56 else 120) -
      remaining.length - 1) 0 ++
    lengthBytes bitLength ++
    List.replicate (128 - (if remaining.length + 9 ≤ 64 then 56 else 120) - 8) 0

/-- Lower-case hex digit of a value below 16. -/
def hexDigitChar (n : Nat) : Char :=
  if n < 10 then Char.ofNat (48 + n) else Char.ofNat (87 + n)

/-- The 8 hex characters of one 32-bit word, most significant nibble first
(`setw(8)` with `setfill('0')` and `hex` in the source). -/
def wordToHex (w : Nat) : List Char :=
  (List.range 8).map fun i => hexDigitChar ((w >>> (28 - 4 * i)) % 16)

/-- Hex rendering of the state, words in order. -/
def sha256StateHex (s : Sha256State) : String :=
  String.mk (wordToHex s.s0 ++ wordToHex s.s1 ++ wordToHex s.s2 ++ wordToHex s.s3 ++
             wordToHex s.s4 ++ wordToHex s.s5 ++ wordToHex s.s6 ++ wordToHex s.s7)

/-- ingest.cpp sha256Hex: process the full 64-byte blocks, build the final
128-byte padding block, process its first half, process its second half only
when the leftover plus marker and length do not fit in one block, then render
the state in hex.  The bit length is the uint64 value `8 * size`. -/
def sha256Hex (data : List Nat) : String :=
  let bitLength := (data.length * 8) % 2 ^ 64
  let pr := processFullBlocks sha256StateInit data
  let fb := finalBlockBytes pr.2 bitLength
  let state2 := sha256ProcessBlock pr.1 (fb.take 64)
  let state3 := if pr.2.length + 9 ≤ 64 then state2
                else sha256ProcessBlock state2 (fb.drop 64)
  sha256StateHex state3

/-! ### Specification-level SHA-256 padding

The spec describes the digest as: append a single 0x80 marker, then zero
bytes, reserving exactly 8 trailing bytes for the big-endian 64-bit bit
length, adding one extra zero-padded block when marker plus length do not fit
in the current block; then process the padded message in 64-byte blocks. -/

/-- The suffix the specification appends to a message of length `len` whose
bit-length field holds `bitLength`. -/
def sha256PadSpec (len bitLength : Nat) : List Nat :=
  0x80 :: (List.replicate
    (if len % 64 + 9 ≤ 64 then 55 - len % 64 else 119 - len % 64) 0 ++
    lengthBytes bitLength)

/-- Split a list into consecutive 64-byte blocks (the last block is short
when the length is not a multiple of 64; the spec only chunks padded
messages, whose length is an exact multiple). -/
def chunks64 (l : List Nat) : List (List Nat) :=
  if h : l.length = 0 then []
  else l.take 64 :: chunks64 (l.drop 64)
termination_by l.length
decreasing_by
  simp only [List.length_drop]
  omega

/-- The digest as the specification words it: pad, then fold the compression
function over the 64-byte blocks, then render in hex. -/
def sha256HexSpec (data : List Nat) : String :=
  let padded := data ++ sha256PadSpec data.length ((data.length * 8) % 2 ^ 64)
  sha256StateHex ((chunks64 padded).foldl sha256ProcessBlock sha256StateInit)

/-! ## The ingest orchestrator (ingest.cpp) -/

/-- One `persist` invocation on the sink: the metadata and result passed, and
the buffer backing the fresh VectorByteSource replay handed over. -/
structure SinkCall where
  meta : UploadMeta
  result : IngestResult
  replayData : List Nat
deriving DecidableEq

/-- ingest.cpp ingest: drain the source with the size_t-max ceiling, reject a
buffer longer than the int64 maximum, build the result (detected type, size,
digest, violations, derived ok flag) and call the sink once with the replay
source over the same buffer.  The returned list collects the persist
invocations of the run; a thrown exception is an `.error` with no
invocation. -/
def ingest (meta : UploadMeta) (cfg : IngestConfig) (reads : List ReadEvent) :
    Except PipelineError (List SinkCall) :=
  match consumeToBuffer reads (2 ^ 64 - 1) with
  | Except.error e => Except.error e
  | Except.ok buffer =>
    if 2 ^ 63 - 1 < buffer.length then
      Except.error PipelineError.payloadSizeExceedsRange
    else
      let size : Int := (buffer.length : Int)
      let detected := detectMime buffer
      let digest := sha256Hex buffer
      let errors := validateLengths meta size cfg.maxContentLength ++
                    validateMime meta detected cfg.acceptedMimes
      let result : IngestResult := ⟨detected, size, digest, errors.isEmpty, errors⟩
      Except.ok [⟨meta, result, buffer⟩]

/-! ## Lemmas about the bounded consumer -/

/-- While the running total stays within the ceiling, the moment the yielded
chunks push the total beyond `maxBytes` the loop throws the ceiling error. -/
theorem consumeToBufferAux_ceiling (maxBytes : Nat) :
    ∀ (reads : List ReadEvent) (total : Nat) (data : List Nat),
      total ≤ maxBytes →
      maxBytes < total + ((yieldedChunks reads).map List.length).sum →
      consumeToBufferAux maxBytes reads total data =
        Except.error PipelineError.bufferCeilingExceeded := by
  intro reads
  induction reads with
  | nil => intro total data h1 h2; simp [yieldedChunks] at h2; omega
  | cons ev rest ih =>
    intro total data h1 h2
    cases ev with
    | ioError => simp [yieldedChunks] at h2; omega
    | chunk c =>
      by_cases hc : c.length = 0
      · simp [yieldedChunks, hc] at h2; omega
      · simp only [yieldedChunks] at h2
        rw [if_neg hc] at h2
        simp only [List.map_cons, List.sum_cons] at h2
        simp only [consumeToBufferAux]
        rw [if_neg hc]
        by_cases hover : maxBytes < total + c.length
        · simp [hover]
        · simp only [hover, if_neg hover, ite_false]
          exact ih (total + c.length) (data ++ c) (by omega) (by omega)

/-- If the loop returns a buffer, that buffer is the accumulator followed by
every chunk the source yielded before end of stream, and the final total
stays within the ceiling. -/
theorem consumeToBufferAux_ok (maxBytes : Nat) :
    ∀ (reads : List ReadEvent) (total : Nat) (data buf : List Nat),
      total ≤ maxBytes →
      consumeToBufferAux maxBytes reads total data = Except.ok buf →
      buf = data ++ (yieldedChunks reads).flatten ∧
      total + ((yieldedChunks reads).map List.length).sum ≤ maxBytes := by
  intro reads
  induction reads with
  | nil =>
    intro total data buf h1 h2
    simp [consumeToBufferAux] at h2
    simp [yieldedChunks, h2, h1]
  | cons ev rest ih =>
    intro total data buf h1 h2
    cases ev with
    | ioError => simp [consumeToBufferAux] at h2
    | chunk c =>
      by_cases hc : c.length = 0
      · rw [List.length_eq_zero] at hc
        subst hc
        simp [consumeToBufferAux] at h2
        simp [yieldedChunks, h2, h1]
      · simp only [consumeToBufferAux, if_neg hc] at h2
        by_cases hover : maxBytes < total + c.length
        · simp [hover] at h2
        · simp only [hover, ite_false] at h2
          obtain ⟨hbuf, hsum⟩ := ih (total + c.length) (data ++ c) buf (by omega) h2
          refine ⟨?_, ?_⟩
          · simp [hbuf, yieldedChunks, hc]
          · simp only [yieldedChunks, if_neg hc, List.map_cons, List.sum_cons]
            omega

/-- While the total stays within the ceiling, the loop never throws the
ceiling error when the yielded chunks fit under it. -/
theorem consumeToBufferAux_ne_ceiling (maxBytes : Nat) :
    ∀ (reads : List ReadEvent) (total : Nat) (data : List Nat),
      total + ((yieldedChunks reads).map List.length).sum ≤ maxBytes →
      consumeToBufferAux maxBytes reads total data ≠
        Except.error PipelineError.bufferCeilingExceeded := by
  intro reads
  induction reads with
  | nil => intro total data _; simp [consumeToBufferAux]
  | cons ev rest ih =>
    intro total data hsum
    cases ev with
    | ioError => simp [consumeToBufferAux]
    | chunk c =>
      by_cases hc : c.length = 0
      · simp [consumeToBufferAux, hc]
      · simp only [yieldedChunks, if_neg hc, List.map_cons, List.sum_cons] at hsum
        simp only [consumeToBufferAux, if_neg hc]
        have hover : ¬ maxBytes < total + c.length := by omega
        simp only [hover, ite_false]
        exact ih (total + c.length) (data ++ c) (by omega)

/-- A run over a list of nonempty chunks followed by anything yields at least
those chunks before end of stream. -/
theorem yieldedChunks_append_chunks :
    ∀ (cs : List (List Nat)) (suffix : List ReadEvent),
      (∀ c ∈ cs, c ≠ []) →
      yieldedChunks (cs.map ReadEvent.chunk ++ suffix) =
        cs ++ yieldedChunks suffix := by
  intro cs
  induction cs with
  | nil => intro suffix _; simp
  | cons c rest ih =>
    intro suffix hne
    have hc : ¬ c.length = 0 := by
      simp only [List.length_eq_zero]
      exact hne c (List.mem_cons_self c rest)
    simp only [List.map_cons, List.cons_append, yieldedChunks]
    rw [if_neg hc]
    simp only [List.append_eq]
    rw [ih suffix fun x hx => hne x (List.mem_cons_of_mem c hx)]

/-! ## Lemmas about the in-memory source -/

/-- Draining an in-memory source with enough positive-size reads returns
exactly the bytes from the cursor to the end. -/
theorem drainVBS_eq_drop :
    ∀ (maxLens : List Nat) (data : List Nat) (offset : Nat),
      (∀ m ∈ maxLens, 1 ≤ m) →
      data.length - offset ≤ maxLens.length →
      drainVBS data offset maxLens = data.drop offset := by
  intro maxLens
  induction maxLens with
  | nil =>
    intro data offset _ hlen
    simp only [List.length_nil, Nat.le_zero] at hlen
    rw [drainVBS, List.drop_eq_nil_of_le (by omega)]
  | cons m rest ih =>
    intro data offset hpos hlen
    by_cases heof : data.length ≤ offset
    · rw [drainVBS]
      simp only [vbsRead, heof, true_or, if_pos (Or.inl heof)]
      simp [List.drop_eq_nil_of_le heof]
    · have hm : 1 ≤ m := hpos m (List.mem_cons_self m rest)
      have hcond : ¬ (data.length ≤ offset ∨ m = 0) := by omega
      rw [drainVBS]
      simp only [vbsRead, if_neg hcond]
      have htc : (if data.length - offset < m then data.length - offset else m) ≤
          data.length - offset := by
        split <;> omega
      have htc1 : 1 ≤ (if data.length - offset < m then data.length - offset else m) := by
        split <;> omega
      set toCopy := if data.length - offset < m then data.length - offset else m with hdef
      have hlen1 : ((data.drop offset).take toCopy).length = toCopy := by
        simp only [List.length_take, List.length_drop]
        omega
      rw [hlen1]
      have hne : ¬ toCopy = 0 := by omega
      simp only [if_neg hne]
      rw [ih data (offset + toCopy)
        (fun x hx => hpos x (List.mem_cons_of_mem m hx)) (by simp at hlen; omega)]
      have hdd : List.drop toCopy (List.drop offset data) =
          List.drop (offset + toCopy) data := by
        rw [List.drop_drop]
      rw [← hdd, List.take_append_drop]

/-! ## Inversion of a successful ingest run -/

/-- A successful ingest run determines everything from the consumed buffer:
the consumer returned it, it fits in an int64, and the single sink invocation
carries the result record assembled from it. -/
theorem ingest_ok_inv (meta : UploadMeta) (cfg : IngestConfig)
    (reads : List ReadEvent) (calls : List SinkCall) :
    ingest meta cfg reads = Except.ok calls →
    ∃ buffer : List Nat,
      consumeToBuffer reads (2 ^ 64 - 1) = Except.ok buffer ∧
      buffer.length ≤ 2 ^ 63 - 1 ∧
      calls = [⟨meta,
        ⟨detectMime buffer, (buffer.length : Int), sha256Hex buffer,
          (validateLengths meta (buffer.length : Int) cfg.maxContentLength ++
           validateMime meta (detectMime buffer) cfg.acceptedMimes).isEmpty,
          validateLengths meta (buffer.length : Int) cfg.maxContentLength ++
           validateMime meta (detectMime buffer) cfg.acceptedMimes⟩,
        buffer⟩] := by
  intro h
  unfold ingest at h
  split at h
  · simp at h
  · rename_i buffer heq
    split at h
    · simp at h
    · rename_i hbig
      simp only [Except.ok.injEq] at h
      exact ⟨buffer, heq, by omega, h.symm⟩

/-! ## Lemmas about MIME normalisation -/

/-- Lower-casing is idempotent on bytes. -/
theorem toLowerByte_idem (c : Nat) : toLowerByte (toLowerByte c) = toLowerByte c := by
  unfold toLowerByte
  split_ifs <;> omega

/-- Lower-casing never produces a semicolon from a non-semicolon. -/
theorem toLowerByte_ne_semicolon {c : Nat} (h : c ≠ 59) : toLowerByte c ≠ 59 := by
  unfold toLowerByte
  split_ifs <;> omega

/-- Lower-casing does not change whether a byte is whitespace. -/
theorem isSpaceByte_toLowerByte (c : Nat) :
    isSpaceByte (toLowerByte c) = isSpaceByte c := by
  rw [Bool.eq_iff_iff]
  unfold isSpaceByte toLowerByte
  split_ifs <;>
    simp only [Bool.or_eq_true, Bool.and_eq_true, beq_iff_eq, decide_eq_true_eq] <;>
    omega

/-- dropWhile is the identity when the head does not satisfy the predicate. -/
theorem dropWhile_eq_self_of_head (p : Nat → Bool) (l : List Nat)
    (h : ∀ x, l.head? = some x → p x = false) : l.dropWhile p = l := by
  cases l with
  | nil => rfl
  | cons a t =>
    rw [List.dropWhile_cons, h a rfl]
    simp

/-- The head of a dropWhile result does not satisfy the predicate. -/
theorem head?_dropWhile_false (p : Nat → Bool) (l : List Nat) (x : Nat)
    (h : (l.dropWhile p).head? = some x) : p x = false := by
  have hd := List.head?_dropWhile_not p l
  rw [h] at hd
  exact hd

/-- Members of a trailing-trim survive into the original list. -/
theorem mem_of_mem_revDropRev (p : Nat → Bool) (l : List Nat) (a : Nat)
    (h : a ∈ (l.reverse.dropWhile p).reverse) : a ∈ l := by
  rw [List.mem_reverse] at h
  have h2 := (List.dropWhile_sublist p).subset h
  rwa [List.mem_reverse] at h2

/-- A trailing-trim keeps the head of a nonempty result. -/
theorem head?_of_revDropRev (p : Nat → Bool) (l : List Nat) (x : Nat)
    (h : ((l.reverse.dropWhile p).reverse).head? = some x) : l.head? = some x := by
  obtain ⟨t, ht⟩ := List.dropWhile_suffix (l := l.reverse) p
  have hl : l = (l.reverse.dropWhile p).reverse ++ t.reverse := by
    have hr := congrArg List.reverse ht
    simpa using hr.symm
  rw [hl]
  cases hc : (l.reverse.dropWhile p).reverse with
  | nil => rw [hc] at h; simp at h
  | cons a t2 =>
    rw [hc] at h
    simp only [List.head?_cons, Option.some.injEq] at h
    simp [h]

/-- No byte of a stripped MIME string is a semicolon. -/
theorem stripMime_no_semicolon (s : List Nat) :
    ∀ a ∈ stripMime s, a ≠ 59 := by
  unfold stripMime
  intro a ha
  obtain ⟨b, hb, rfl⟩ := List.mem_map.mp ha
  apply toLowerByte_ne_semicolon
  have hb2 := mem_of_mem_revDropRev _ _ _ hb
  have hb1 := (List.dropWhile_sublist _).subset hb2
  have := List.mem_takeWhile_imp hb1
  simpa using this

/-- The first byte of a stripped MIME string is not whitespace. -/
theorem stripMime_head_not_space (s : List Nat) (x : Nat)
    (h : (stripMime s).head? = some x) : isSpaceByte x = false := by
  unfold stripMime at h
  rw [List.head?_map] at h
  cases hh : (((s.takeWhile (fun c => c ≠ 59)).dropWhile
      (fun c => isSpaceByte c)).reverse.dropWhile
      (fun c => isSpaceByte c)).reverse.head? with
  | none => rw [hh] at h; simp at h
  | some b =>
    rw [hh] at h
    simp at h
    subst h
    rw [isSpaceByte_toLowerByte]
    have hb := head?_of_revDropRev _ _ _ hh
    exact head?_dropWhile_false _ _ _ hb

/-- The last byte of a stripped MIME string is not whitespace. -/
theorem stripMime_last_not_space (s : List Nat) (x : Nat)
    (h : (stripMime s).reverse.head? = some x) : isSpaceByte x = false := by
  unfold stripMime at h
  rw [← List.map_reverse, List.reverse_reverse, List.head?_map] at h
  cases hh : (((s.takeWhile (fun c => c ≠ 59)).dropWhile
      (fun c => isSpaceByte c)).reverse.dropWhile (fun c => isSpaceByte c)).head? with
  | none => rw [hh] at h; simp at h
  | some b =>
    rw [hh] at h
    simp at h
    subst h
    rw [isSpaceByte_toLowerByte]
    exact head?_dropWhile_false _ _ _ hh

/-- A stripped MIME string is already lower-case. -/
theorem stripMime_map_toLowerByte (s : List Nat) :
    (stripMime s).map toLowerByte = stripMime s := by
  unfold stripMime
  rw [List.map_map]
  apply List.map_congr_left
  intro a _
  exact toLowerByte_idem a

/-- A list not containing 59, whose first and last bytes are not whitespace
and whose bytes are already lower-cased, is a fixed point of stripMime. -/
theorem stripMime_fixed (l : List Nat)
    (h59 : ∀ a ∈ l, a ≠ 59)
    (hhead : ∀ x, l.head? = some x → isSpaceByte x = false)
    (hlast : ∀ x, l.reverse.head? = some x → isSpaceByte x = false)
    (hlow : l.map toLowerByte = l) :
    stripMime l = l := by
  unfold stripMime
  rw [List.takeWhile_eq_self_iff.mpr (by
    intro x hx
    simp only [decide_eq_true_eq]
    exact h59 x hx)]
  rw [dropWhile_eq_self_of_head _ _ hhead]
  rw [dropWhile_eq_self_of_head _ _ hlast]
  rw [List.reverse_reverse]
  exact hlow

/-- stripMime is idempotent. -/
theorem stripMime_stripMime (s : List Nat) :
    stripMime (stripMime s) = stripMime s := by
  apply stripMime_fixed
  · exact stripMime_no_semicolon s
  · exact stripMime_head_not_space s
  · exact stripMime_last_not_space s
  · exact stripMime_map_toLowerByte s

/-! ## Lemmas about the SHA-256 block loop and padding -/

/-- Any fuel at least the length of the data gives the block loop the same
result. -/
theorem processFullBlocksFuel_congr :
    ∀ (f1 f2 : Nat) (st : Sha256State) (d : List Nat),
      d.length ≤ f1 → d.length ≤ f2 →
      processFullBlocksFuel f1 st d = processFullBlocksFuel f2 st d := by
  intro f1
  induction f1 with
  | zero =>
    intro f2 st d h1 _
    cases f2 with
    | zero => rfl
    | succ m =>
      have hd : ¬ 64 ≤ d.length := by omega
      simp [processFullBlocksFuel, hd]
  | succ n ih =>
    intro f2 st d h1 h2
    by_cases hd : 64 ≤ d.length
    · cases f2 with
      | zero => omega
      | succ m =>
        simp only [processFullBlocksFuel, if_pos hd]
        exact ih m _ _ (by simp; omega) (by simp; omega)
    · cases f2 with
      | zero => simp [processFullBlocksFuel, hd]
      | succ m => simp [processFullBlocksFuel, hd]

/-- The block loop stops at once on fewer than 64 bytes. -/
theorem processFullBlocks_of_lt (st : Sha256State) (d : List Nat)
    (h : d.length < 64) : processFullBlocks st d = (st, d) := by
  unfold processFullBlocks
  cases hv : d.length with
  | zero => rfl
  | succ n =>
    have hd : ¬ 64 ≤ d.length := by omega
    simp [processFullBlocksFuel, hd]

/-- The block loop consumes the leading 64-byte block when one is there. -/
theorem processFullBlocks_step (st : Sha256State) (d : List Nat)
    (h : 64 ≤ d.length) :
    processFullBlocks st d =
      processFullBlocks (sha256ProcessBlock st (d.take 64)) (d.drop 64) := by
  unfold processFullBlocks
  obtain ⟨n, hv⟩ : ∃ n, d.length = n + 1 := ⟨d.length - 1, by omega⟩
  rw [hv]
  simp only [processFullBlocksFuel, if_pos h]
  exact processFullBlocksFuel_congr n (d.drop 64).length _ (d.drop 64)
    (by simp; omega) (by simp)

/-- Unfolding chunks64 on a nonempty list. -/
theorem chunks64_cons (l : List Nat) (h : l.length ≠ 0) :
    chunks64 l = l.take 64 :: chunks64 (l.drop 64) := by
  rw [chunks64]
  simp [h]

/-- A 64-byte list is a single chunk. -/
theorem chunks64_single (l : List Nat) (h : l.length = 64) :
    chunks64 l = [l] := by
  rw [chunks64_cons l (by omega)]
  rw [List.take_of_length_le (by omega), List.drop_eq_nil_of_le (by omega)]
  rw [chunks64]
  simp

/-- The length bytes field is 8 bytes long. -/
theorem lengthBytes_length (bl : Nat) : (lengthBytes bl).length = 8 := by
  simp [lengthBytes]

/-- The source arrangement of the final padding block agrees with the
spec-level padded message: processing the leftover of the block loop through
the 128-byte finalBlock array is the same as folding the compression function
over the 64-byte chunks of the message extended by the spec padding. -/
theorem sha256Finish_eq :
    ∀ (n : Nat) (data : List Nat) (st : Sha256State) (bl : Nat),
      data.length = n →
      (if (processFullBlocks st data).2.length + 9 ≤ 64 then
         sha256ProcessBlock (processFullBlocks st data).1
           ((finalBlockBytes (processFullBlocks st data).2 bl).take 64)
       else
         sha256ProcessBlock
           (sha256ProcessBlock (processFullBlocks st data).1
             ((finalBlockBytes (processFullBlocks st data).2 bl).take 64))
           ((finalBlockBytes (processFullBlocks st data).2 bl).drop 64))
      = (chunks64 (data ++ sha256PadSpec data.length bl)).foldl
          sha256ProcessBlock st := by
  intro n
  induction n using Nat.strong_induction_on with
  | _ n ih =>
    intro data st bl hlen
    by_cases hbig : 64 ≤ data.length
    · -- consume one leading 64-byte block on both sides
      rw [processFullBlocks_step st data hbig]
      have hA : (data.take 64).length = 64 := by
        simp only [List.length_take]
        omega
      have hsplit : data ++ sha256PadSpec data.length bl =
          data.take 64 ++ (data.drop 64 ++ sha256PadSpec data.length bl) := by
        rw [← List.append_assoc, List.take_append_drop]
      have hmod : sha256PadSpec data.length bl =
          sha256PadSpec (data.drop 64).length bl := by
        unfold sha256PadSpec
        simp only [List.length_drop]
        have hm : data.length % 64 = (data.length - 64) % 64 := by omega
        rw [hm]
      rw [hsplit, chunks64_cons _
          (by simp only [List.length_append, List.length_take]; omega),
        List.take_left' hA, List.drop_left' hA, List.foldl_cons]
      rw [hmod]
      exact ih (n - 64) (by omega) (data.drop 64)
        (sha256ProcessBlock st (data.take 64)) bl (by simp; omega)
    · -- the block loop stops; the leftover is the whole data
      rw [processFullBlocks_of_lt st data (by omega)]
      by_cases hfit : data.length + 9 ≤ 64
      · -- one final block
        have hfb : finalBlockBytes data bl =
            (data ++ sha256PadSpec data.length bl) ++ List.replicate 64 0 := by
          unfold finalBlockBytes sha256PadSpec
          rw [if_pos hfit, Nat.mod_eq_of_lt (by omega),
            if_pos (by omega : data.length + 9 ≤ 64)]
          have hz : 56 - data.length - 1 = 55 - data.length := by omega
          rw [hz]
          simp [List.append_assoc]
        have hlen64 : (data ++ sha256PadSpec data.length bl).length = 64 := by
          unfold sha256PadSpec
          rw [Nat.mod_eq_of_lt (by omega), if_pos (by omega : data.length + 9 ≤ 64)]
          simp [lengthBytes_length]
          omega
        rw [if_pos (by simpa using hfit)]
        rw [hfb, List.take_left' hlen64]
        rw [chunks64_single _ hlen64, List.foldl_cons, List.foldl_nil]
      · -- two final blocks
        have hfb : finalBlockBytes data bl =
            data ++ sha256PadSpec data.length bl := by
          unfold finalBlockBytes sha256PadSpec
          rw [if_neg hfit, Nat.mod_eq_of_lt (by omega),
            if_neg (by omega : ¬ data.length + 9 ≤ 64)]
          have hz : 120 - data.length - 1 = 119 - data.length := by omega
          rw [hz]
          simp [List.append_assoc]
        have hlen128 : (data ++ sha256PadSpec data.length bl).length = 128 := by
          unfold sha256PadSpec
          rw [Nat.mod_eq_of_lt (by omega), if_neg (by omega : ¬ data.length + 9 ≤ 64)]
          simp [lengthBytes_length]
          omega
        rw [if_neg (by simpa using hfit)]
        rw [hfb]
        rw [chunks64_cons _ (by simp [hlen128])]
        rw [chunks64_single _ (by simp [hlen128])]
        rw [List.foldl_cons, List.foldl_cons, List.foldl_nil]

/-- The source digest equals the spec-level padded-message digest. -/
theorem sha256Hex_eq_spec (data : List Nat) :
    sha256Hex data = sha256HexSpec data := by
  unfold sha256Hex sha256HexSpec
  exact congrArg sha256StateHex
    (sha256Finish_eq data.length data sha256StateInit
      ((data.length * 8) % 2 ^ 64) rfl)

/-! ## Lemmas about the hex rendering -/

/-- One word renders as exactly 8 characters. -/
theorem wordToHex_length (w : Nat) : (wordToHex w).length = 8 := by
  simp [wordToHex]

/-- The state renders as exactly 64 characters. -/
theorem sha256StateHex_length (s : Sha256State) :
    (sha256StateHex s).length = 64 := by
  simp [sha256StateHex, String.length, wordToHex_length]

/-- Hex digits of values below 16 are lower-case hex characters. -/
theorem hexDigitChar_mem (n : Nat) (h : n < 16) :
    hexDigitChar n ∈ ("0123456789abcdef").toList := by
  revert n
  decide

/-- Every character of a rendered word is a lower-case hex character. -/
theorem wordToHex_chars (w : Nat) :
    ∀ c ∈ wordToHex w, c ∈ ("0123456789abcdef").toList := by
  intro c hc
  simp only [wordToHex, List.mem_map, List.mem_range] at hc
  obtain ⟨i, _, rfl⟩ := hc
  exact hexDigitChar_mem _ (Nat.mod_lt _ (by omega))

/-- Every character of the rendered state is a lower-case hex character. -/
theorem sha256StateHex_chars (s : Sha256State) :
    ∀ c ∈ (sha256StateHex s).toList, c ∈ ("0123456789abcdef").toList := by
  intro c hc
  simp only [sha256StateHex, String.toList, String.mk, List.mem_append] at hc
  rcases hc with ((((((h | h) | h) | h) | h) | h) | h) | h <;>
    exact wordToHex_chars _ c h

/-! ## Lemmas about the validators -/

/-- validateLengths is the ordered concatenation of its three rule
outcomes. -/
theorem validateLengths_eq (meta : UploadMeta) (size mx : Int) :
    validateLengths meta size mx =
      (if meta.hasContentLength ∧ meta.contentLength < 0 then
        ["contentLength is negative"] else []) ++
      (if meta.hasContentLength ∧ 0 ≤ meta.contentLength ∧
          size ≠ meta.contentLength then
        ["contentLength mismatch"] else []) ++
      (if 0 ≤ mx ∧ mx < size then ["exceeds maxContentLength"] else []) := by
  unfold validateLengths
  by_cases hc : meta.hasContentLength
  · simp only [hc, if_pos hc, true_and]
    split_ifs <;> simp_all <;> omega
  · simp [hc]

/-- validateMime is the ordered concatenation of its two rule outcomes,
with matching expressed through stripMime. -/
theorem validateMime_eq (meta : UploadMeta) (detected : List Nat)
    (accepted : List (List Nat)) :
    validateMime meta detected accepted =
      (if meta.claimedMime ≠ [] ∧ stripMime meta.claimedMime ≠ stripMime detected
       then ["claimedMime does not match detectedMime"] else []) ++
      (if accepted ≠ [] ∧ ∀ a ∈ accepted, stripMime detected ≠ stripMime a
       then ["detectedMime not accepted"] else []) := by
  unfold validateMime equalsIgnoreParams isAcceptedMime
  congr 1
  · congr 1
    rw [eq_iff_iff]
    simp [beq_iff_eq]
  · congr 1
    rw [eq_iff_iff]
    simp [List.any_eq_true, beq_iff_eq, equalsIgnoreParams]

/-! ## A helper for signature facts -/

/-- A take that hits a list of full length forces the source to be at least
that long. -/
theorem length_le_of_take_eq (k : Nat) (bytes m : List Nat)
    (h : bytes.take k = m) (hk : m.length = k) : k ≤ bytes.length := by
  have := congrArg List.length h
  simp only [List.length_take] at this
  omega

/-- A single nonempty chunk within the ceiling is consumed whole. -/
theorem consumeToBuffer_single_chunk (c : List Nat) (maxB : Nat)
    (h1 : c.length ≠ 0) (h2 : c.length ≤ maxB) :
    consumeToBuffer [ReadEvent.chunk c] maxB = Except.ok c := by
  unfold consumeToBuffer
  simp only [consumeToBufferAux, if_neg h1]
  rw [if_neg (show ¬ maxB < 0 + c.length by omega)]
  simp [consumeToBufferAux]

/-! ## The claims -/

/-- C1: every ingest call that completes without an exception invokes the
sink persist exactly once (the invocation list is the singleton of one call),
whether or not the result passed validation; the replay source handed to the
sink is backed by exactly the consumed buffer, which is the buffer the digest
and the sniffer inspected, its length is result.size, and fully draining the
replay source (any sequence of positive-size reads long enough to reach end
of stream) yields that buffer byte for byte. -/
theorem claimC1 (meta : UploadMeta) (cfg : IngestConfig)
    (reads : List ReadEvent) (calls : List SinkCall)
    (h : ingest meta cfg reads = Except.ok calls) :
    ∃ c : SinkCall, calls = [c] ∧
      consumeToBuffer reads (2 ^ 64 - 1) = Except.ok c.replayData ∧
      c.result.size = (c.replayData.length : Int) ∧
      c.result.sha256 = sha256Hex c.replayData ∧
      c.result.detectedMime = detectMime c.replayData ∧
      ∀ maxLens : List Nat, (∀ m ∈ maxLens, 1 ≤ m) →
        c.replayData.length ≤ maxLens.length →
        drainVBS c.replayData 0 maxLens = c.replayData := by
  obtain ⟨buffer, hcons, hfit, hcalls⟩ := ingest_ok_inv meta cfg reads calls h
  subst hcalls
  refine ⟨_, rfl, hcons, rfl, rfl, rfl, ?_⟩
  intro maxLens hpos hlen
  have hd := drainVBS_eq_drop maxLens buffer 0 hpos (by simpa using hlen)
  simpa using hd

/-- C1 witness: a concrete two-byte upload; the sink call carries the bytes
and two one-byte reads drain the replay source completely. -/
theorem claimC1_witness :
    drainVBS (ascii "ab") 0 [1, 1] = ascii "ab" := by
  obtain ⟨c, hc, hcons, hsize, hsha, hdet, hdrain⟩ :=
    claimC1 ⟨"f", [], false, 0⟩ ⟨-1, []⟩ [ReadEvent.chunk (ascii "ab")]
      [⟨⟨"f", [], false, 0⟩,
        ⟨mimeOctetStream, 2, sha256Hex (ascii "ab"), true, []⟩, ascii "ab"⟩]
      (by rfl)
  have hceq : (⟨⟨"f", [], false, 0⟩,
      ⟨mimeOctetStream, 2, sha256Hex (ascii "ab"), true, []⟩,
      ascii "ab"⟩ : SinkCall) = c := by
    have h2 := hc
    simp only [List.cons.injEq, and_true] at h2
    exact h2
  rw [← hceq] at hdrain
  exact hdrain [1, 1] (by decide) (by decide)

/-- C2: sha256Hex agrees for every buffer with the specification-level
digest (64-byte blocks of the message padded with one 0x80 marker, zeros and
the big-endian 64-bit bit length, one extra block when marker plus length do
not fit); its output always has exactly 64 characters, all of them lower-case
hexadecimal; and the empty input hashes to the documented constant.
Determinism is inherent: sha256Hex is a pure function of the byte list. -/
theorem claimC2 :
    (∀ data : List Nat, sha256Hex data = sha256HexSpec data) ∧
    (∀ data : List Nat, (sha256Hex data).length = 64) ∧
    (∀ data : List Nat, ∀ c ∈ (sha256Hex data).toList,
      c ∈ ("0123456789abcdef").toList) ∧
    sha256Hex [] =
      "e3b0c44298fc1c149afbf4c8996fb92427ae41e4649b934ca495991b7852b855" := by
  refine ⟨sha256Hex_eq_spec, ?_, ?_, by rfl⟩
  · intro data
    exact sha256StateHex_length _
  · intro data c hc
    exact sha256StateHex_chars _ c hc

/-- C2 witness: the first character of the empty-input digest is a lower-case
hex character. -/
theorem claimC2_witness :
    'e' ∈ (sha256Hex []).toList ∧ 'e' ∈ ("0123456789abcdef").toList := by
  have h : 'e' ∈ (sha256Hex []).toList := by
    rw [claimC2.2.2.2]
    decide
  exact ⟨h, claimC2.2.2.1 [] 'e' h⟩

/-- C3: the validator produces exactly the violations of the four rules in
the fixed order content-length (negative, else mismatch, the two mutually
exclusive), policy ceiling (skipped for the negative unbounded sentinel, but
applied even with no declared length), claimed-vs-detected MIME, and
detected-not-accepted; no rule short-circuits another and the violation list
never repeats a message. -/
theorem claimC3 (meta : UploadMeta) (size : Int) (detected : List Nat)
    (cfg : IngestConfig) :
    validateLengths meta size cfg.maxContentLength ++
        validateMime meta detected cfg.acceptedMimes =
      (if meta.hasContentLength ∧ meta.contentLength < 0 then
        ["contentLength is negative"] else []) ++
      (if meta.hasContentLength ∧ 0 ≤ meta.contentLength ∧
          size ≠ meta.contentLength then
        ["contentLength mismatch"] else []) ++
      (if 0 ≤ cfg.maxContentLength ∧ cfg.maxContentLength < size then
        ["exceeds maxContentLength"] else []) ++
      (if meta.claimedMime ≠ [] ∧
          stripMime meta.claimedMime ≠ stripMime detected then
        ["claimedMime does not match detectedMime"] else []) ++
      (if cfg.acceptedMimes ≠ [] ∧ ∀ a ∈ cfg.acceptedMimes,
          stripMime detected ≠ stripMime a then
        ["detectedMime not accepted"] else []) ∧
    (validateLengths meta size cfg.maxContentLength ++
      validateMime meta detected cfg.acceptedMimes).Nodup := by
  have heq : validateLengths meta size cfg.maxContentLength ++
      validateMime meta detected cfg.acceptedMimes =
    (if meta.hasContentLength ∧ meta.contentLength < 0 then
      ["contentLength is negative"] else []) ++
    (if meta.hasContentLength ∧ 0 ≤ meta.contentLength ∧
        size ≠ meta.contentLength then
      ["contentLength mismatch"] else []) ++
    (if 0 ≤ cfg.maxContentLength ∧ cfg.maxContentLength < size then
      ["exceeds maxContentLength"] else []) ++
    (if meta.claimedMime ≠ [] ∧
        stripMime meta.claimedMime ≠ stripMime detected then
      ["claimedMime does not match detectedMime"] else []) ++
    (if cfg.acceptedMimes ≠ [] ∧ ∀ a ∈ cfg.acceptedMimes,
        stripMime detected ≠ stripMime a then
      ["detectedMime not accepted"] else []) := by
    rw [validateLengths_eq, validateMime_eq]
    simp [List.append_assoc]
  refine ⟨heq, ?_⟩
  rw [heq]
  split_ifs <;> decide

/-- C3 witness: a mismatching declared length together with an over-ceiling
size and a claimed type differing from the detected one produce exactly the
three corresponding messages, in order. -/
theorem claimC3_witness :
    validateLengths ⟨"f", ascii "image/png", true, 5⟩ 2 1 ++
      validateMime ⟨"f", ascii "image/png", true, 5⟩ mimePdf [] =
      ["contentLength mismatch", "exceeds maxContentLength",
       "claimedMime does not match detectedMime"] := by
  rw [(claimC3 ⟨"f", ascii "image/png", true, 5⟩ 2 mimePdf ⟨1, []⟩).1]
  decide

/-- C4: detectMime is total by construction and classifies by the first
matching signature in the fixed order PDF, PNG, ZIP-with-Office-marker;
everything else, including empty and short input, yields the octet-stream
default. -/
theorem claimC4 (bytes : List Nat) :
    (bytes.take 4 = pdfMagic → detectMime bytes = mimePdf) ∧
    (bytes.take 4 ≠ pdfMagic → bytes.take 8 = pngMagic →
      detectMime bytes = mimePng) ∧
    (bytes.take 4 ≠ pdfMagic → bytes.take 8 ≠ pngMagic →
      bytes.take 4 = zipMagic →
      (containsSeq wordSig (bytes.take 4096) ||
        containsSeq contentTypesSig (bytes.take 4096)) = true →
      detectMime bytes = mimeDocx) ∧
    (bytes.take 4 ≠ pdfMagic → bytes.take 8 ≠ pngMagic →
      ¬ (bytes.take 4 = zipMagic ∧
        (containsSeq wordSig (bytes.take 4096) ||
          containsSeq contentTypesSig (bytes.take 4096)) = true) →
      detectMime bytes = mimeOctetStream) ∧
    (bytes.length < 4 → detectMime bytes = mimeOctetStream) := by
  refine ⟨?_, ?_, ?_, ?_, ?_⟩
  · intro h
    have h4 : 4 ≤ bytes.length := length_le_of_take_eq 4 bytes pdfMagic h (by decide)
    unfold detectMime
    rw [if_pos ⟨h4, h⟩]
  · intro h1 h2
    have h8 : 8 ≤ bytes.length := length_le_of_take_eq 8 bytes pngMagic h2 (by decide)
    unfold detectMime
    rw [if_neg (fun hc => h1 hc.2), if_pos ⟨h8, h2⟩]
  · intro h1 h2 h3 h4
    have hl : 4 ≤ bytes.length := length_le_of_take_eq 4 bytes zipMagic h3 (by decide)
    unfold detectMime
    rw [if_neg (fun hc => h1 hc.2), if_neg (fun hc => h2 hc.2),
      if_pos ⟨hl, h3, h4⟩]
  · intro h1 h2 h3
    unfold detectMime
    rw [if_neg (fun hc => h1 hc.2), if_neg (fun hc => h2 hc.2),
      if_neg (fun hc => h3 ⟨hc.2.1, hc.2.2⟩)]
  · intro h
    unfold detectMime
    rw [if_neg (fun hc => by omega), if_neg (fun hc => by omega),
      if_neg (fun hc => by omega)]

/-- C4 witness: a buffer starting with the PDF signature is classified as
PDF. -/
theorem claimC4_witness :
    detectMime (ascii "%PDF-1.4") = mimePdf :=
  (claimC4 (ascii "%PDF-1.4")).1 (by decide)

/-- C5: consumeToBuffer throws the capacity error exactly when the running
total of bytes the source yields before end of stream exceeds maxBytes; the
check is incremental, so a run of nonempty chunks overflowing the ceiling
forces the error no matter what follows them; and a normal return delivers
exactly the ordered concatenation of every yielded chunk, the total within
the ceiling. -/
theorem claimC5 (reads : List ReadEvent) (maxBytes : Nat) :
    (consumeToBuffer reads maxBytes =
        Except.error PipelineError.bufferCeilingExceeded ↔
      maxBytes < ((yieldedChunks reads).map List.length).sum) ∧
    (∀ buf, consumeToBuffer reads maxBytes = Except.ok buf →
      buf = (yieldedChunks reads).flatten ∧
      ((yieldedChunks reads).map List.length).sum ≤ maxBytes) ∧
    (∀ (cs : List (List Nat)) (suffix : List ReadEvent),
      (∀ c ∈ cs, c ≠ []) →
      maxBytes < (cs.map List.length).sum →
      consumeToBuffer (cs.map ReadEvent.chunk ++ suffix) maxBytes =
        Except.error PipelineError.bufferCeilingExceeded) := by
  refine ⟨⟨?_, ?_⟩, ?_, ?_⟩
  · intro h
    by_contra hn
    exact consumeToBufferAux_ne_ceiling maxBytes reads 0 [] (by omega) h
  · intro h
    exact consumeToBufferAux_ceiling maxBytes reads 0 [] (by omega) (by omega)
  · intro buf h
    obtain ⟨h1, h2⟩ := consumeToBufferAux_ok maxBytes reads 0 [] buf
      (Nat.zero_le _) h
    exact ⟨by simpa using h1, by omega⟩
  · intro cs suffix hne hover
    apply consumeToBufferAux_ceiling maxBytes _ 0 [] (by omega)
    rw [yieldedChunks_append_chunks cs suffix hne]
    simp only [List.map_append, List.sum_append]
    omega

/-- C5 witness: a three-byte chunk against a two-byte ceiling produces the
capacity error. -/
theorem claimC5_witness :
    consumeToBuffer [ReadEvent.chunk [0, 0, 0]] 2 =
      Except.error PipelineError.bufferCeilingExceeded :=
  (claimC5 [ReadEvent.chunk [0, 0, 0]] 2).1.mpr (by decide)

/-- C6: a failure while consuming the source (I/O error or ceiling breach)
propagates out of ingest unchanged, before any result exists and with no
sink invocation (the error return carries none); a successful consumption
whose buffer fits in an int64 always reaches the sink exactly once, whatever
policy violations the validators record. -/
theorem claimC6 :
    (∀ (meta : UploadMeta) (cfg : IngestConfig) (reads : List ReadEvent)
        (e : PipelineError),
      consumeToBuffer reads (2 ^ 64 - 1) = Except.error e →
      ingest meta cfg reads = Except.error e) ∧
    (∀ (meta : UploadMeta) (cfg : IngestConfig) (reads : List ReadEvent)
        (buf : List Nat),
      consumeToBuffer reads (2 ^ 64 - 1) = Except.ok buf →
      buf.length ≤ 2 ^ 63 - 1 →
      ∃ c : SinkCall, ingest meta cfg reads = Except.ok [c]) := by
  constructor
  · intro meta cfg reads e h
    unfold ingest
    rw [h]
  · intro meta cfg reads buf h hfit
    unfold ingest
    rw [h]
    dsimp only
    rw [if_neg (by omega)]
    exact ⟨_, rfl⟩

/-- C6 witness: an immediate I/O failure surfaces as the same error from
ingest. -/
theorem claimC6_witness :
    ingest ⟨"f", [], false, 0⟩ ⟨-1, []⟩ [ReadEvent.ioError] =
      Except.error PipelineError.sourceIoError :=
  claimC6.1 ⟨"f", [], false, 0⟩ ⟨-1, []⟩ [ReadEvent.ioError]
    PipelineError.sourceIoError (by rfl)

/-- C7: in every sink invocation of a completed ingest call, the ok flag is
exactly the emptiness of the violation list; it is derived from that list
when the result record is assembled, never set independently. -/
theorem claimC7 (meta : UploadMeta) (cfg : IngestConfig)
    (reads : List ReadEvent) (calls : List SinkCall)
    (h : ingest meta cfg reads = Except.ok calls) :
    ∀ c ∈ calls, c.result.ok = c.result.errors.isEmpty := by
  obtain ⟨buffer, _, _, hcalls⟩ := ingest_ok_inv meta cfg reads calls h
  intro c hc
  rw [hcalls, List.mem_singleton] at hc
  subst hc
  rfl

/-- C7 witness: the empty upload passes and its flag equals the emptiness of
its empty violation list. -/
theorem claimC7_witness :
    (⟨⟨"f", [], false, 0⟩, ⟨mimeOctetStream, 0, sha256Hex [], true, []⟩,
      []⟩ : SinkCall).result.ok =
    (⟨⟨"f", [], false, 0⟩, ⟨mimeOctetStream, 0, sha256Hex [], true, []⟩,
      []⟩ : SinkCall).result.errors.isEmpty := by
  apply claimC7 ⟨"f", [], false, 0⟩ ⟨-1, []⟩ []
    [⟨⟨"f", [], false, 0⟩, ⟨mimeOctetStream, 0, sha256Hex [], true, []⟩, []⟩]
    (by rfl)
  exact List.mem_singleton.mpr rfl

/-- C8 counterexample: the claim says the in-memory read returns 0 only at
true end of stream, but a read with maxLen = 0 returns 0 bytes while the
one-byte backing sequence has not been yielded at all. -/
theorem claimC8_counterexample :
    (vbsRead [0] 0 0).1 = [] ∧ ¬ (List.length [(0 : Nat)] ≤ 0) := by
  decide

/-- C8 (amended): the in-memory read never returns more than maxLen bytes,
never moves its cursor backwards, returns bytes copied from the cursor
position onward and advances the cursor by exactly that count, and returns
zero bytes only at true end of stream or when the caller requests maxLen = 0
(the code returns 0 for a zero-length request even before end of stream). -/
theorem claimC8 (data : List Nat) (offset maxLen : Nat) :
    (vbsRead data offset maxLen).1.length ≤ maxLen ∧
    offset ≤ (vbsRead data offset maxLen).2 ∧
    (1 ≤ maxLen →
      ((vbsRead data offset maxLen).1 = [] ↔ data.length ≤ offset)) ∧
    ((vbsRead data offset maxLen).1 ≠ [] →
      (vbsRead data offset maxLen).1 =
        (data.drop offset).take ((vbsRead data offset maxLen).1.length) ∧
      (vbsRead data offset maxLen).2 =
        offset + (vbsRead data offset maxLen).1.length) := by
  unfold vbsRead
  by_cases hc : data.length ≤ offset ∨ maxLen = 0
  · rw [if_pos hc]
    refine ⟨by simp, le_refl _, fun hm => ?_, fun hne => absurd rfl hne⟩
    simp only [List.length_nil, true_iff]
    rcases hc with h | h
    · simp [h]
    · omega
  · rw [if_neg hc]
    have h1 : ¬ data.length ≤ offset := fun h => hc (Or.inl h)
    have h2 : ¬ maxLen = 0 := fun h => hc (Or.inr h)
    have hlen : ((data.drop offset).take
        (if data.length - offset < maxLen then data.length - offset
         else maxLen)).length =
        (if data.length - offset < maxLen then data.length - offset
         else maxLen) := by
      simp only [List.length_take, List.length_drop]
      split_ifs <;> omega
    refine ⟨?_, ?_, ?_, ?_⟩
    · simp only [hlen]
      split_ifs <;> omega
    · simp only []
      split_ifs <;> omega
    · intro hm
      simp only []
      constructor
      · intro hempty
        have hl := congrArg List.length hempty
        rw [hlen] at hl
        simp only [List.length_nil] at hl
        split_ifs at hl <;> omega
      · intro hle
        exact absurd hle h1
    · intro hne
      exact ⟨by rw [hlen], by rw [hlen]⟩

/-- C8 witness: a one-byte backing sequence read with maxLen 1 returns at
most one byte, and its zero-return condition coincides with end of stream. -/
theorem claimC8_witness :
    (vbsRead [5] 0 1).1.length ≤ 1 ∧
    ((vbsRead [5] 0 1).1 = [] ↔ List.length [(5 : Nat)] ≤ 0) := by
  obtain ⟨ha, hb, hcnd, hd⟩ := claimC8 [5] 0 1
  exact ⟨ha, hcnd (by decide)⟩

/-- C9: the policy comparator equates two content-type strings exactly when
stripping (drop from the first semicolon, trim whitespace, lower-case) makes
them identical; it is reflexive, symmetric and transitive, and stripping is
idempotent. -/
theorem claimC9 :
    (∀ l r : List Nat,
      equalsIgnoreParams l r = true ↔ stripMime l = stripMime r) ∧
    (∀ s : List Nat, equalsIgnoreParams s s = true) ∧
    (∀ l r : List Nat, equalsIgnoreParams l r = true →
      equalsIgnoreParams r l = true) ∧
    (∀ a b c : List Nat, equalsIgnoreParams a b = true →
      equalsIgnoreParams b c = true → equalsIgnoreParams a c = true) ∧
    (∀ s : List Nat, stripMime (stripMime s) = stripMime s) := by
  have hiff : ∀ l r : List Nat,
      equalsIgnoreParams l r = true ↔ stripMime l = stripMime r := by
    intro l r
    unfold equalsIgnoreParams
    exact beq_iff_eq
  refine ⟨hiff, ?_, ?_, ?_, stripMime_stripMime⟩
  · intro s
    exact (hiff s s).mpr rfl
  · intro l r h
    exact (hiff r l).mpr ((hiff l r).mp h).symm
  · intro a b c h1 h2
    exact (hiff a c).mpr (((hiff a b).mp h1).trans ((hiff b c).mp h2))

/-- C9 witness: transitivity at concrete strings differing in case,
parameters and padding. -/
theorem claimC9_witness :
    equalsIgnoreParams (ascii "A") (ascii "a ") = true :=
  claimC9.2.2.2.1 (ascii "A") (ascii " a;q") (ascii "a ")
    (by decide) (by decide)

/-- C10: when the consumed buffer is longer than the largest int64, ingest
throws the payload-range error before assembling any result and with no sink
invocation; whenever the buffer fits (always reachable in practice), the
run succeeds and every result carries a non-negative size. -/
theorem claimC10 :
    (∀ (meta : UploadMeta) (cfg : IngestConfig) (reads : List ReadEvent)
        (buf : List Nat),
      consumeToBuffer reads (2 ^ 64 - 1) = Except.ok buf →
      2 ^ 63 - 1 < buf.length →
      ingest meta cfg reads =
        Except.error PipelineError.payloadSizeExceedsRange) ∧
    (∀ (meta : UploadMeta) (cfg : IngestConfig) (reads : List ReadEvent)
        (calls : List SinkCall),
      ingest meta cfg reads = Except.ok calls →
      ∀ c ∈ calls, 0 ≤ c.result.size) := by
  constructor
  · intro meta cfg reads buf h hbig
    unfold ingest
    rw [h]
    dsimp only
    rw [if_pos hbig]
  · intro meta cfg reads calls h c hc
    obtain ⟨buffer, _, _, hcalls⟩ := ingest_ok_inv meta cfg reads calls h
    rw [hcalls, List.mem_singleton] at hc
    subst hc
    exact Int.natCast_nonneg _

/-- C10 witness: a single chunk of 2 to the 63rd zero bytes is consumed in
full, overruns the int64 bound, and ingest raises the payload-range error. -/
theorem claimC10_witness :
    ingest ⟨"f", [], false, 0⟩ ⟨-1, []⟩
        [ReadEvent.chunk (List.replicate (2 ^ 63) 0)] =
      Except.error PipelineError.payloadSizeExceedsRange := by
  apply claimC10.1 ⟨"f", [], false, 0⟩ ⟨-1, []⟩ _ (List.replicate (2 ^ 63) 0)
  · apply consumeToBuffer_single_chunk
    · simp only [List.length_replicate]
      decide
    · simp only [List.length_replicate]
      decide
  · simp only [List.length_replicate]
    decide
